import Mathlib

/-!
Verification of the aes_par repository: AES-128/CTR on byte buffers with a
hardware backend (AES-NI intrinsics, src/cpu/aes/simd.rs), a software
backend (src/cpu/aes/sisd.rs, absent from the sources and therefore
modelled from the spec), a CTR codec (src/cpu/aes/mod.rs) and a scoped
thread pool (src/cpu/scoped_thread_pool.rs).

Machine integers are modelled as Nat with explicit reduction modulo 2^w.
A u128 value is a Nat below 2^128; an __m128i register is modelled as its
list of 16 byte lanes (lane 0 first, which is the memory order of a
transmute on a little-endian x86 machine). Byte buffers are lists of Nat.
-/

set_option linter.unusedVariables false
set_option linter.unreachableTactic false
set_option linter.unusedTactic false
set_option maxRecDepth 16000

/-- Little-endian byte decomposition: the k low bytes of n, least significant
first. -/
def toLEBytesAux : Nat → Nat → List Nat
  | 0, _ => []
  | k + 1, n => n % 256 :: toLEBytesAux k (n / 256)

/-- Models u128::to_le_bytes: the 16 little-endian bytes of a 128-bit value. -/
def toLEBytes (n : Nat) : List Nat := toLEBytesAux 16 n

/-- Models u128::from_le_bytes on a little-endian list of bytes. -/
def fromLEBytes : List Nat → Nat
  | [] => 0
  | b :: bs => b + 256 * fromLEBytes bs

theorem toLEBytesAux_length (k : Nat) : ∀ n, (toLEBytesAux k n).length = k := by
  induction k with
  | zero => intro n; rfl
  | succ k ih => intro n; simp [toLEBytesAux, ih]

theorem toLEBytes_length (n : Nat) : (toLEBytes n).length = 16 :=
  toLEBytesAux_length 16 n

theorem toLEBytesAux_lt (k : Nat) : ∀ n, ∀ b ∈ toLEBytesAux k n, b < 256 := by
  induction k with
  | zero => intro n b hb; simp [toLEBytesAux] at hb
  | succ k ih =>
    intro n b hb
    simp only [toLEBytesAux, List.mem_cons] at hb
    rcases hb with h | h
    · subst h; exact Nat.mod_lt _ (by omega)
    · exact ih _ b h

theorem toLEBytes_lt (n : Nat) : ∀ b ∈ toLEBytes n, b < 256 :=
  toLEBytesAux_lt 16 n

theorem fromLEBytes_toLEBytesAux (k : Nat) :
    ∀ n, fromLEBytes (toLEBytesAux k n) = n % 256 ^ k := by
  induction k with
  | zero => intro n; simp [toLEBytesAux, fromLEBytes, Nat.mod_one]
  | succ k ih =>
    intro n
    simp only [toLEBytesAux, fromLEBytes, ih]
    rw [pow_succ, mul_comm (256 ^ k) 256, Nat.mod_mul]

theorem fromLEBytes_toLEBytes (n : Nat) (h : n < 2 ^ 128) :
    fromLEBytes (toLEBytes n) = n := by
  have h2 : (256 : Nat) ^ 16 = 2 ^ 128 := by norm_num
  rw [toLEBytes, fromLEBytes_toLEBytesAux, h2, Nat.mod_eq_of_lt h]

theorem toLEBytesAux_fromLEBytes :
    ∀ l : List Nat, (∀ b ∈ l, b < 256) →
      toLEBytesAux l.length (fromLEBytes l) = l := by
  intro l
  induction l with
  | nil => intro _; rfl
  | cons b bs ih =>
    intro hb
    have hblt : b < 256 := hb b (by simp)
    simp only [List.length_cons, fromLEBytes, toLEBytesAux]
    rw [Nat.add_mul_mod_self_left, Nat.mod_eq_of_lt hblt,
      Nat.add_mul_div_left _ _ (by omega : (0:Nat) < 256),
      Nat.div_eq_of_lt hblt, Nat.zero_add,
      ih (fun x hx => hb x (by simp [hx]))]

theorem toLEBytes_fromLEBytes (l : List Nat) (hlen : l.length = 16)
    (hb : ∀ b ∈ l, b < 256) : toLEBytes (fromLEBytes l) = l := by
  have := toLEBytesAux_fromLEBytes l hb
  rwa [hlen] at this

theorem fromLEBytes_lt :
    ∀ l : List Nat, (∀ b ∈ l, b < 256) → fromLEBytes l < 256 ^ l.length := by
  intro l
  induction l with
  | nil => intro _; simp [fromLEBytes]
  | cons b bs ih =>
    intro hb
    have h1 : b < 256 := hb b (by simp)
    have h2 : fromLEBytes bs < 256 ^ bs.length :=
      ih (fun x hx => hb x (by simp [hx]))
    simp only [fromLEBytes, List.length_cons, pow_succ]
    calc b + 256 * fromLEBytes bs
        < 256 + 256 * fromLEBytes bs := by omega
      _ ≤ 256 * 256 ^ bs.length := by omega
      _ = 256 ^ bs.length * 256 := by ring

/-- Models u128::to_be on a little-endian machine: reverse the 16 bytes. -/
def to_be (n : Nat) : Nat := fromLEBytes (toLEBytes n).reverse

/-- Models std::mem::transmute from u128 to __m128i on little-endian x86:
the byte lanes of the register are the little-endian bytes of the value. -/
def to_sse_128 (n : Nat) : List Nat := toLEBytes n

/-- Models std::mem::transmute from __m128i to u128 on little-endian x86. -/
def from_sse_128 (l : List Nat) : Nat := fromLEBytes l

theorem to_sse_128_to_be (n : Nat) :
    to_sse_128 (to_be n) = (toLEBytes n).reverse := by
  unfold to_sse_128 to_be
  apply toLEBytes_fromLEBytes
  · simp [toLEBytes_length]
  · intro b hb
    exact toLEBytes_lt n b (List.mem_reverse.mp hb)

theorem to_be_from_sse_128 (l : List Nat) (hlen : l.length = 16)
    (hb : ∀ b ∈ l, b < 256) :
    to_be (from_sse_128 l) = fromLEBytes l.reverse := by
  unfold to_be from_sse_128
  rw [toLEBytes_fromLEBytes l hlen hb]

/-- The AES S-box, transcribed from the S_BOX table in src/cpu/mod.rs. -/
def S_BOX : List Nat := [
  0x63, 0x7c, 0x77, 0x7b, 0xf2, 0x6b, 0x6f, 0xc5, 0x30, 0x01, 0x67, 0x2b, 0xfe, 0xd7, 0xab, 0x76,
  0xca, 0x82, 0xc9, 0x7d, 0xfa, 0x59, 0x47, 0xf0, 0xad, 0xd4, 0xa2, 0xaf, 0x9c, 0xa4, 0x72, 0xc0,
  0xb7, 0xfd, 0x93, 0x26, 0x36, 0x3f, 0xf7, 0xcc, 0x34, 0xa5, 0xe5, 0xf1, 0x71, 0xd8, 0x31, 0x15,
  0x04, 0xc7, 0x23, 0xc3, 0x18, 0x96, 0x05, 0x9a, 0x07, 0x12, 0x80, 0xe2, 0xeb, 0x27, 0xb2, 0x75,
  0x09, 0x83, 0x2c, 0x1a, 0x1b, 0x6e, 0x5a, 0xa0, 0x52, 0x3b, 0xd6, 0xb3, 0x29, 0xe3, 0x2f, 0x84,
  0x53, 0xd1, 0x00, 0xed, 0x20, 0xfc, 0xb1, 0x5b, 0x6a, 0xcb, 0xbe, 0x39, 0x4a, 0x4c, 0x58, 0xcf,
  0xd0, 0xef, 0xaa, 0xfb, 0x43, 0x4d, 0x33, 0x85, 0x45, 0xf9, 0x02, 0x7f, 0x50, 0x3c, 0x9f, 0xa8,
  0x51, 0xa3, 0x40, 0x8f, 0x92, 0x9d, 0x38, 0xf5, 0xbc, 0xb6, 0xda, 0x21, 0x10, 0xff, 0xf3, 0xd2,
  0xcd, 0x0c, 0x13, 0xec, 0x5f, 0x97, 0x44, 0x17, 0xc4, 0xa7, 0x7e, 0x3d, 0x64, 0x5d, 0x19, 0x73,
  0x60, 0x81, 0x4f, 0xdc, 0x22, 0x2a, 0x90, 0x88, 0x46, 0xee, 0xb8, 0x14, 0xde, 0x5e, 0x0b, 0xdb,
  0xe0, 0x32, 0x3a, 0x0a, 0x49, 0x06, 0x24, 0x5c, 0xc2, 0xd3, 0xac, 0x62, 0x91, 0x95, 0xe4, 0x79,
  0xe7, 0xc8, 0x37, 0x6d, 0x8d, 0xd5, 0x4e, 0xa9, 0x6c, 0x56, 0xf4, 0xea, 0x65, 0x7a, 0xae, 0x08,
  0xba, 0x78, 0x25, 0x2e, 0x1c, 0xa6, 0xb4, 0xc6, 0xe8, 0xdd, 0x74, 0x1f, 0x4b, 0xbd, 0x8b, 0x8a,
  0x70, 0x3e, 0xb5, 0x66, 0x48, 0x03, 0xf6, 0x0e, 0x61, 0x35, 0x57, 0xb9, 0x86, 0xc1, 0x1d, 0x9e,
  0xe1, 0xf8, 0x98, 0x11, 0x69, 0xd9, 0x8e, 0x94, 0x9b, 0x1e, 0x87, 0xe9, 0xce, 0x55, 0x28, 0xdf,
  0x8c, 0xa1, 0x89, 0x0d, 0xbf, 0xe6, 0x42, 0x68, 0x41, 0x99, 0x2d, 0x0f, 0xb0, 0x54, 0xbb, 0x16]

/-- S-box lookup on one byte. -/
def sbox (b : Nat) : Nat := S_BOX.getD b 0

set_option maxRecDepth 4000 in
theorem sbox_lt (b : Nat) : sbox b < 256 := by
  unfold sbox
  by_cases h : b < S_BOX.length
  · have hmem : S_BOX.getD b 0 ∈ S_BOX := by
      rw [List.getD_eq_getElem?_getD, List.getElem?_eq_getElem h]
      exact List.getElem_mem h
    revert hmem
    have hall : ∀ x ∈ S_BOX, x < 256 := by decide
    exact hall _
  · rw [List.getD_eq_getElem?_getD, List.getElem?_eq_none (by omega)]
    simp

/-- GF(2^8) doubling (xtime) on a byte, reducing by the AES polynomial. -/
def xtime (b : Nat) : Nat :=
  if b < 128 then 2 * b else (2 * b - 256) ^^^ 0x1b

/-- GF(2^8) multiplication by 3. -/
def mul3 (b : Nat) : Nat := xtime b ^^^ b

theorem xor_lt_256 {a b : Nat} (ha : a < 256) (hb : b < 256) : a ^^^ b < 256 := by
  have h : (256 : Nat) = 2 ^ 8 := by norm_num
  rw [h] at ha hb ⊢
  exact Nat.xor_lt_two_pow ha hb

theorem xtime_lt {b : Nat} (hb : b < 256) : xtime b < 256 := by
  unfold xtime
  split
  · omega
  · exact xor_lt_256 (by omega) (by omega)

theorem mul3_lt {b : Nat} (hb : b < 256) : mul3 b < 256 :=
  xor_lt_256 (xtime_lt hb) hb

/-- AES SubBytes on a 16-byte state held in column-major (lane) order. -/
def subBytesL (l : List Nat) : List Nat := l.map sbox

/-- AES ShiftRows on a 16-byte state held in column-major (lane) order:
the byte at lane 4c+r comes from lane 4((c+r) mod 4)+r. -/
def shiftRowsL : List Nat → List Nat
  | [a0, a1, a2, a3, a4, a5, a6, a7, a8, a9, a10, a11, a12, a13, a14, a15] =>
      [a0, a5, a10, a15, a4, a9, a14, a3, a8, a13, a2, a7, a12, a1, a6, a11]
  | l => l

/-- AES MixColumns on one 4-byte column. -/
def mixColumn : List Nat → List Nat
  | [b0, b1, b2, b3] =>
      [xtime b0 ^^^ mul3 b1 ^^^ b2 ^^^ b3,
       b0 ^^^ xtime b1 ^^^ mul3 b2 ^^^ b3,
       b0 ^^^ b1 ^^^ xtime b2 ^^^ mul3 b3,
       mul3 b0 ^^^ b1 ^^^ b2 ^^^ xtime b3]
  | l => l

/-- AES MixColumns on a 16-byte state held in column-major (lane) order. -/
def mixColumnsL : List Nat → List Nat
  | [a0, a1, a2, a3, a4, a5, a6, a7, a8, a9, a10, a11, a12, a13, a14, a15] =>
      mixColumn [a0, a1, a2, a3] ++ mixColumn [a4, a5, a6, a7] ++
      mixColumn [a8, a9, a10, a11] ++ mixColumn [a12, a13, a14, a15]
  | l => l

/-- Bytewise XOR of two 16-byte registers: models _mm_xor_si128. -/
def mm_xor_si128 (a b : List Nat) : List Nat := List.zipWith HXor.hXor a b

/-- Models _mm_slli_si128 with immediate 4: shift the whole register left by
4 byte lanes, zeros entering at the low lanes. -/
def mm_slli_si128_4 : List Nat → List Nat
  | [a0, a1, a2, a3, a4, a5, a6, a7, a8, a9, a10, a11, a12, a13, a14, a15] =>
      [0, 0, 0, 0, a0, a1, a2, a3, a4, a5, a6, a7, a8, a9, a10, a11]
  | l => l

/-- Models _mm_shuffle_epi32 with immediate 255: broadcast dword 3
(lanes 12..15) into all four dword positions. -/
def mm_shuffle_epi32_255 : List Nat → List Nat
  | [a0, a1, a2, a3, a4, a5, a6, a7, a8, a9, a10, a11, a12, a13, a14, a15] =>
      [a12, a13, a14, a15, a12, a13, a14, a15, a12, a13, a14, a15, a12, a13, a14, a15]
  | l => l

/-- Models _mm_aeskeygenassist_si128: with input dwords X0..X3 (X1 in lanes
4..7, X3 in lanes 12..15) and round constant rcon, the result is
[SubWord(X1), RotWord(SubWord(X1)) xor rcon, SubWord(X3),
RotWord(SubWord(X3)) xor rcon]; RotWord moves the low byte of a dword to
the top, and rcon lands in the low byte lane of its dword. -/
def mm_aeskeygenassist_si128 (rcon : Nat) : List Nat → List Nat
  | [a0, a1, a2, a3, a4, a5, a6, a7, a8, a9, a10, a11, a12, a13, a14, a15] =>
      [sbox a4, sbox a5, sbox a6, sbox a7,
       sbox a5 ^^^ rcon, sbox a6, sbox a7, sbox a4,
       sbox a12, sbox a13, sbox a14, sbox a15,
       sbox a13 ^^^ rcon, sbox a14, sbox a15, sbox a12]
  | l => l

/-- Models _mm_aesenc_si128: one middle AES round, which the instruction
performs as ShiftRows, SubBytes, MixColumns, then XOR with the round key. -/
def mm_aesenc_si128 (st rk : List Nat) : List Nat :=
  mm_xor_si128 (mixColumnsL (subBytesL (shiftRowsL st))) rk

/-- Models _mm_aesenclast_si128: the final AES round, performed as
ShiftRows, SubBytes, then XOR with the round key (no MixColumns). -/
def mm_aesenclast_si128 (st rk : List Nat) : List Nat :=
  mm_xor_si128 (subBytesL (shiftRowsL st)) rk

/-- Big-endian byte view of a u128: byte 0 is the most significant. -/
def toBEBytes (n : Nat) : List Nat := (toLEBytes n).reverse

/-- Rebuild a u128 from its big-endian byte view. -/
def fromBEBytes (l : List Nat) : Nat := fromLEBytes l.reverse

namespace simd

/-- Round constants, from the RCON table in src/cpu/aes/simd.rs
(not right padded). -/
def RCON : List Nat := [0x01, 0x02, 0x04, 0x08, 0x10, 0x20, 0x40, 0x80, 0x1b, 0x36]

/-- key_expansion_assist from src/cpu/aes/simd.rs: the shuffle / shift /
xor pipeline over xmm registers. -/
def key_expansion_assist (xmm1 xmm2 : List Nat) : List Nat :=
  let xmm2a := mm_shuffle_epi32_255 xmm2
  let xmm3a := mm_slli_si128_4 xmm1
  let xmm1a := mm_xor_si128 xmm1 xmm3a
  let xmm3b := mm_slli_si128_4 xmm1a
  let xmm1b := mm_xor_si128 xmm1a xmm3b
  let xmm3c := mm_slli_si128_4 xmm1b
  let xmm1c := mm_xor_si128 xmm1b xmm3c
  mm_xor_si128 xmm1c xmm2a

/-- The key_expand_i macro from src/cpu/aes/simd.rs: byte-reverse the
previous round key into a register, run aeskeygenassist with RCON[i] and
the assist pipeline, byte-reverse the result back. -/
def key_expand_i (key : Nat) (i : Nat) : Nat :=
  let xmm1 := to_sse_128 (to_be key)
  let xmm2 := mm_aeskeygenassist_si128 (RCON.getD i 0) xmm1
  to_be (from_sse_128 (key_expansion_assist xmm1 xmm2))

/-- key_expansion from src/cpu/aes/simd.rs. -/
def key_expansion (key : Nat) : List Nat :=
  let rk0 := key
  let rk1 := key_expand_i rk0 0
  let rk2 := key_expand_i rk1 1
  let rk3 := key_expand_i rk2 2
  let rk4 := key_expand_i rk3 3
  let rk5 := key_expand_i rk4 4
  let rk6 := key_expand_i rk5 5
  let rk7 := key_expand_i rk6 6
  let rk8 := key_expand_i rk7 7
  let rk9 := key_expand_i rk8 8
  let rk10 := key_expand_i rk9 9
  [rk0, rk1, rk2, rk3, rk4, rk5, rk6, rk7, rk8, rk9, rk10]

/-- cipher from src/cpu/aes/simd.rs; its assert that round_keys has length
11 is carried as a hypothesis of the theorems about it. -/
def cipher (state : Nat) (round_keys : List Nat) : Nat :=
  let st0 := to_sse_128 (to_be state)
  let st1 := mm_xor_si128 st0 (to_sse_128 (to_be (round_keys.getD 0 0)))
  let st2 := (List.range 9).foldl
    (fun st i => mm_aesenc_si128 st (to_sse_128 (to_be (round_keys.getD (i + 1) 0)))) st1
  let st3 := mm_aesenclast_si128 st2 (to_sse_128 (to_be (round_keys.getD 10 0)))
  to_be (from_sse_128 st3)

end simd

namespace sisd

/-- Modelled from the spec: src/cpu/aes/sisd.rs is declared in
src/cpu/aes/mod.rs but absent from the sources; the round constants are
the RCON set listed in the spec. -/
def RCON : List Nat := [0x01, 0x02, 0x04, 0x08, 0x10, 0x20, 0x40, 0x80, 0x1b, 0x36]

/-- Modelled from the spec: S-box applied bytewise to one 32-bit word
(big-endian byte list). -/
def subWordB (w : List Nat) : List Nat := w.map sbox

/-- Modelled from the spec: rotate a 32-bit word left by one byte
(big-endian byte list). -/
def rotWordB : List Nat → List Nat
  | [b0, b1, b2, b3] => [b1, b2, b3, b0]
  | l => l

/-- Modelled from the spec: one AES-128 key schedule step of the missing
software backend src/cpu/aes/sisd.rs. Rotate the top word left one byte,
apply the S-box bytewise, XOR the round constant into the most significant
byte, then cascade the XOR across the four words. -/
def key_expansion_round (rc : Nat) (rk : Nat) : Nat :=
  match toBEBytes rk with
  | [k0, k1, k2, k3, k4, k5, k6, k7, k8, k9, k10, k11, k12, k13, k14, k15] =>
    let temp := List.zipWith HXor.hXor (subWordB (rotWordB [k12, k13, k14, k15])) [rc, 0, 0, 0]
    let w0n := List.zipWith HXor.hXor [k0, k1, k2, k3] temp
    let w1n := List.zipWith HXor.hXor [k4, k5, k6, k7] w0n
    let w2n := List.zipWith HXor.hXor [k8, k9, k10, k11] w1n
    let w3n := List.zipWith HXor.hXor [k12, k13, k14, k15] w2n
    fromBEBytes (w0n ++ w1n ++ w2n ++ w3n)
  | _ => 0

/-- Modelled from the spec: key_expansion of the missing software backend
src/cpu/aes/sisd.rs; element 0 is the input key, each further element is
one schedule step from its predecessor. -/
def key_expansion (key : Nat) : List Nat :=
  let rk0 := key
  let rk1 := key_expansion_round 0x01 rk0
  let rk2 := key_expansion_round 0x02 rk1
  let rk3 := key_expansion_round 0x04 rk2
  let rk4 := key_expansion_round 0x08 rk3
  let rk5 := key_expansion_round 0x10 rk4
  let rk6 := key_expansion_round 0x20 rk5
  let rk7 := key_expansion_round 0x40 rk6
  let rk8 := key_expansion_round 0x80 rk7
  let rk9 := key_expansion_round 0x1b rk8
  let rk10 := key_expansion_round 0x36 rk9
  [rk0, rk1, rk2, rk3, rk4, rk5, rk6, rk7, rk8, rk9, rk10]

/-- Modelled from the spec: cipher of the missing software backend
src/cpu/aes/sisd.rs. Byte order is reversed at the I/O boundary; XOR rk0
into the state, nine rounds of SubBytes, ShiftRows, MixColumns,
AddRoundKey, then a final round without MixColumns using rk10. -/
def cipher (state : Nat) (round_keys : List Nat) : Nat :=
  let st0 := List.zipWith HXor.hXor (toBEBytes state) (toBEBytes (round_keys.getD 0 0))
  let st9 := (List.range 9).foldl
    (fun st i =>
      List.zipWith HXor.hXor (mixColumnsL (shiftRowsL (subBytesL st)))
        (toBEBytes (round_keys.getD (i + 1) 0))) st0
  let stL := List.zipWith HXor.hXor (shiftRowsL (subBytesL st9))
    (toBEBytes (round_keys.getD 10 0))
  fromBEBytes stL

end sisd

/-- key_expansion from src/cpu/aes/mod.rs; the runtime probe for the AES
and SSE2 CPU features is modelled by the boolean hw. -/
def key_expansion (hw : Bool) (key : Nat) : List Nat :=
  if hw then simd.key_expansion key else sisd.key_expansion key

/-- cipher from src/cpu/aes/mod.rs; the runtime probe for the AES and SSE2
CPU features is modelled by the boolean hw, and the assert that
round_keys has length 11 is carried as a hypothesis of the theorems. -/
def cipher (hw : Bool) (state : Nat) (round_keys : List Nat) : Nat :=
  if hw then simd.cipher state round_keys else sisd.cipher state round_keys

/-- Fuel-indexed splitting of a byte buffer into chunks of 16; models
slice::chunks_mut(16). The fuel (an upper bound on the length) makes the
recursion structural so that proofs and evaluation unfold definitionally. -/
def chunks16Aux : Nat → List Nat → List (List Nat)
  | _, [] => []
  | 0, _ :: _ => []
  | fuel + 1, a :: t => List.take 16 (a :: t) :: chunks16Aux fuel (List.drop 16 (a :: t))

/-- Models data.chunks_mut(16): the buffer split into 16-byte chunks, the
last chunk possibly shorter. -/
def chunks16 (l : List Nat) : List (List Nat) := chunks16Aux l.length l

/-- Models (data.len() as f64 / 16.0).ceil() as usize, which for any
buffer that fits in memory is exactly the ceiling of len / 16. -/
def num_128_blks (len : Nat) : Nat := (len + 15) / 16

/-- AesBlock from src/cpu/aes/mod.rs: the information necessary to encrypt
one block. The mutable sub-slice borrow and the Arc round-key handle are
modelled by the lists they reference. -/
structure AesBlock where
  ctr_block : Nat
  data : List Nat
  round_keys : List Nat
deriving Repr, DecidableEq

/-- AesBlock::decompose from src/cpu/aes/mod.rs. The CSPRNG draw used when
no IV is supplied is modelled by the oracle parameter rng (the sixteen
random bytes read as a native-endian u128); the runtime feature probe
inside key_expansion by hw. The assert that the key has 16 bytes is
carried as a hypothesis of the theorems. -/
def AesBlock.decompose (hw : Bool) (rng : Nat) (data : List Nat)
    (key : List Nat) (iv : Option Nat) : List AesBlock :=
  let ivv := match iv with
    | some iv_provided => iv_provided
    | none => rng % 2 ^ 128
  let keyN := fromLEBytes key
  let round_keys := key_expansion hw keyN
  let counter := (List.range (num_128_blks data.length)).map
    (fun n => (n + ivv) % 2 ^ 128)
  List.zipWith
    (fun data_chunk ctr => AesBlock.mk ctr data_chunk round_keys)
    (chunks16 data) counter

/-- AesBlock::encrypt from src/cpu/aes/mod.rs: XOR the block's sub-slice
with the low bytes of the enciphered counter; returns the new contents of
the sub-slice (the Rust code mutates it in place). -/
def AesBlock.encrypt (hw : Bool) (b : AesBlock) : List Nat :=
  let enc_counter := toLEBytes (cipher hw b.ctr_block b.round_keys)
  List.zipWith HXor.hXor b.data enc_counter

/-- aes_encrypt_decrypt from src/cpu/aes/mod.rs. Returns the final buffer
contents together with the IV used; rng models the CSPRNG draw of the
None branch, hw the runtime feature probe, and the assert that the key
has 16 bytes is carried as a hypothesis of the theorems. -/
def aes_encrypt_decrypt (hw : Bool) (rng : Nat) (data : List Nat)
    (key : List Nat) (iv : Option Nat) : List Nat × Nat :=
  let ivv := match iv with
    | some iv_provided => iv_provided
    | none => rng % 2 ^ 128
  let keyN := fromLEBytes key
  let rks := key_expansion hw keyN
  let counter := (List.range (num_128_blks data.length)).map
    (fun n => (n + ivv) % 2 ^ 128)
  let data_chunks := chunks16 data
  ((List.zipWith
      (fun block ctr => List.zipWith HXor.hXor block (toLEBytes (cipher hw ctr rks)))
      data_chunks counter).flatten,
   ivv)

/-- aes_encrypt from src/cpu/aes/mod.rs. -/
def aes_encrypt (hw : Bool) (rng : Nat) (data : List Nat) (key : List Nat) :
    List Nat × Nat :=
  aes_encrypt_decrypt hw rng data key none

/-- aes_decrypt from src/cpu/aes/mod.rs (the returned IV is discarded; the
rng oracle is never consulted on the Some path, so it is passed as 0). -/
def aes_decrypt (hw : Bool) (data : List Nat) (key : List Nat) (iv : Nat) :
    List Nat :=
  (aes_encrypt_decrypt hw 0 data key (some iv)).fst

/-- The effect on the whole shared buffer of running the encrypt()
operation of the task with block index i produced by AesBlock::decompose:
only the sub-slice at offset 16*i is XOR-ed with that block's keystream. -/
def run_block (hw : Bool) (rks : List Nat) (iv : Nat) (buf : List Nat)
    (i : Nat) : List Nat :=
  List.take (16 * i) buf ++
    List.zipWith HXor.hXor (List.take 16 (List.drop (16 * i) buf))
      (toLEBytes (cipher hw ((i + iv) % 2 ^ 128) rks)) ++
    List.drop (16 * i + 16) buf

/-- A register/state value: a list of 16 bytes. -/
def Bytes16 (l : List Nat) : Prop := l.length = 16 ∧ ∀ b ∈ l, b < 256

theorem exists_sixteen (l : List Nat) (h : l.length = 16) :
    ∃ a0 a1 a2 a3 a4 a5 a6 a7 a8 a9 a10 a11 a12 a13 a14 a15,
      l = [a0, a1, a2, a3, a4, a5, a6, a7, a8, a9, a10, a11, a12, a13, a14, a15] :=
  match l, h with
  | [a0, a1, a2, a3, a4, a5, a6, a7, a8, a9, a10, a11, a12, a13, a14, a15], _ =>
    ⟨a0, a1, a2, a3, a4, a5, a6, a7, a8, a9, a10, a11, a12, a13, a14, a15, rfl⟩

theorem bytes16_toBEBytes (n : Nat) : Bytes16 (toBEBytes n) := by
  refine ⟨by simp [toBEBytes, toLEBytes_length], ?_⟩
  intro b hb
  exact toLEBytes_lt n b (List.mem_reverse.mp hb)

theorem bytes16_toLEBytes (n : Nat) : Bytes16 (toLEBytes n) :=
  ⟨toLEBytes_length n, toLEBytes_lt n⟩

theorem zipWith_xor_lt (a : List Nat) :
    ∀ b : List Nat, (∀ x ∈ a, x < 256) → (∀ x ∈ b, x < 256) →
      ∀ x ∈ List.zipWith HXor.hXor a b, x < 256 := by
  induction a with
  | nil => intro b _ _ x hx; simp at hx
  | cons ah at' ih =>
    intro b ha hb x hx
    cases b with
    | nil => simp at hx
    | cons bh bt =>
      simp only [List.zipWith_cons_cons, List.mem_cons] at hx
      rcases hx with h | h
      · subst h
        exact xor_lt_256 (ha ah (by simp)) (hb bh (by simp))
      · exact ih bt (fun x hx => ha x (by simp [hx]))
          (fun x hx => hb x (by simp [hx])) x h

theorem bytes16_zipWith_xor {a b : List Nat} (ha : Bytes16 a) (hb : Bytes16 b) :
    Bytes16 (List.zipWith HXor.hXor a b) := by
  refine ⟨?_, zipWith_xor_lt a b ha.2 hb.2⟩
  rw [List.length_zipWith, ha.1, hb.1]
  rfl

theorem bytes16_subBytesL {l : List Nat} (h : Bytes16 l) :
    Bytes16 (subBytesL l) := by
  refine ⟨by simp [subBytesL, h.1], ?_⟩
  intro b hb
  simp only [subBytesL, List.mem_map] at hb
  obtain ⟨x, _, rfl⟩ := hb
  exact sbox_lt x

theorem bytes16_shiftRowsL {l : List Nat} (h : Bytes16 l) :
    Bytes16 (shiftRowsL l) := by
  obtain ⟨a0, a1, a2, a3, a4, a5, a6, a7, a8, a9, a10, a11, a12, a13, a14, a15,
    rfl⟩ := exists_sixteen l h.1
  have hb := h.2
  refine ⟨rfl, ?_⟩
  intro b hb2
  simp only [shiftRowsL, List.mem_cons, List.not_mem_nil, or_false] at hb2
  rcases hb2 with rfl | rfl | rfl | rfl | rfl | rfl | rfl | rfl | rfl | rfl |
    rfl | rfl | rfl | rfl | rfl | rfl <;> exact hb _ (by simp)

theorem mixColumn_lt {b0 b1 b2 b3 : Nat} (h0 : b0 < 256) (h1 : b1 < 256)
    (h2 : b2 < 256) (h3 : b3 < 256) :
    ∀ x ∈ mixColumn [b0, b1, b2, b3], x < 256 := by
  intro x hx
  simp only [mixColumn, List.mem_cons, List.not_mem_nil, or_false] at hx
  rcases hx with rfl | rfl | rfl | rfl
  · exact xor_lt_256 (xor_lt_256 (xor_lt_256 (xtime_lt h0) (mul3_lt h1)) h2) h3
  · exact xor_lt_256 (xor_lt_256 (xor_lt_256 h0 (xtime_lt h1)) (mul3_lt h2)) h3
  · exact xor_lt_256 (xor_lt_256 (xor_lt_256 h0 h1) (xtime_lt h2)) (mul3_lt h3)
  · exact xor_lt_256 (xor_lt_256 (xor_lt_256 (mul3_lt h0) h1) h2) (xtime_lt h3)

theorem bytes16_mixColumnsL {l : List Nat} (h : Bytes16 l) :
    Bytes16 (mixColumnsL l) := by
  obtain ⟨a0, a1, a2, a3, a4, a5, a6, a7, a8, a9, a10, a11, a12, a13, a14, a15,
    rfl⟩ := exists_sixteen l h.1
  have hb := h.2
  have c0 := mixColumn_lt (hb a0 (by simp)) (hb a1 (by simp)) (hb a2 (by simp))
    (hb a3 (by simp))
  have c1 := mixColumn_lt (hb a4 (by simp)) (hb a5 (by simp)) (hb a6 (by simp))
    (hb a7 (by simp))
  have c2 := mixColumn_lt (hb a8 (by simp)) (hb a9 (by simp)) (hb a10 (by simp))
    (hb a11 (by simp))
  have c3 := mixColumn_lt (hb a12 (by simp)) (hb a13 (by simp))
    (hb a14 (by simp)) (hb a15 (by simp))
  constructor
  · rfl
  · intro x hx
    simp only [mixColumnsL, List.mem_append] at hx
    rcases hx with ((h | h) | h) | h
    · exact c0 x h
    · exact c1 x h
    · exact c2 x h
    · exact c3 x h

theorem sub_shift_comm {l : List Nat} (h : l.length = 16) :
    subBytesL (shiftRowsL l) = shiftRowsL (subBytesL l) := by
  obtain ⟨a0, a1, a2, a3, a4, a5, a6, a7, a8, a9, a10, a11, a12, a13, a14, a15,
    rfl⟩ := exists_sixteen l h
  rfl

theorem shiftRowsL_length {l : List Nat} (h : l.length = 16) :
    (shiftRowsL l).length = 16 := by
  obtain ⟨a0, a1, a2, a3, a4, a5, a6, a7, a8, a9, a10, a11, a12, a13, a14, a15,
    rfl⟩ := exists_sixteen l h
  rfl

theorem mixColumnsL_length {l : List Nat} (h : l.length = 16) :
    (mixColumnsL l).length = 16 := by
  obtain ⟨a0, a1, a2, a3, a4, a5, a6, a7, a8, a9, a10, a11, a12, a13, a14, a15,
    rfl⟩ := exists_sixteen l h
  rfl

theorem foldl_congr_inv {α β : Type} {P : α → Prop} {f g : α → β → α}
    (hfg : ∀ st x, P st → f st x = g st x)
    (hP : ∀ st x, P st → P (f st x)) :
    ∀ (l : List β) (st : α), P st →
      List.foldl f st l = List.foldl g st l ∧ P (List.foldl f st l) := by
  intro l
  induction l with
  | nil => intro st h; exact ⟨rfl, h⟩
  | cons x xs ih =>
    intro st h
    obtain ⟨he, hp⟩ := ih (f st x) (hP st x h)
    refine ⟨?_, by simpa using hp⟩
    simp only [List.foldl_cons]
    rw [← hfg st x h, he]

theorem to_sse_toBE (n : Nat) : to_sse_128 (to_be n) = toBEBytes n :=
  to_sse_128_to_be n

theorem to_be_from_sse_toBE {l : List Nat} (h : Bytes16 l) :
    to_be (from_sse_128 l) = fromBEBytes l :=
  to_be_from_sse_128 l h.1 h.2

theorem mm_aesenc_eq_std (st rk : List Nat) (h : st.length = 16) :
    mm_aesenc_si128 st rk =
      List.zipWith HXor.hXor (mixColumnsL (shiftRowsL (subBytesL st))) rk := by
  unfold mm_aesenc_si128 mm_xor_si128
  rw [sub_shift_comm h]

theorem mm_aesenclast_eq_std (st rk : List Nat) (h : st.length = 16) :
    mm_aesenclast_si128 st rk =
      List.zipWith HXor.hXor (shiftRowsL (subBytesL st)) rk := by
  unfold mm_aesenclast_si128 mm_xor_si128
  rw [sub_shift_comm h]

theorem bytes16_round {st rk : List Nat} (hst : Bytes16 st) (hrk : Bytes16 rk) :
    Bytes16 (List.zipWith HXor.hXor (mixColumnsL (shiftRowsL (subBytesL st))) rk) :=
  bytes16_zipWith_xor
    (bytes16_mixColumnsL (bytes16_shiftRowsL (bytes16_subBytesL hst))) hrk

/-- The two cipher implementations agree on every state and schedule. -/
theorem simd_cipher_eq_sisd (state : Nat) (round_keys : List Nat) :
    simd.cipher state round_keys = sisd.cipher state round_keys := by
  unfold simd.cipher sisd.cipher
  simp only [to_sse_toBE, mm_xor_si128]
  have h1 : Bytes16 (List.zipWith HXor.hXor (toBEBytes state)
      (toBEBytes (round_keys.getD 0 0))) :=
    bytes16_zipWith_xor (bytes16_toBEBytes _) (bytes16_toBEBytes _)
  have hfold := foldl_congr_inv (P := Bytes16)
    (f := fun st i => mm_aesenc_si128 st (toBEBytes (round_keys.getD (i + 1) 0)))
    (g := fun st i => List.zipWith HXor.hXor (mixColumnsL (shiftRowsL (subBytesL st)))
      (toBEBytes (round_keys.getD (i + 1) 0)))
    (fun st x hP => mm_aesenc_eq_std st _ hP.1)
    (fun st x hP => by
      show Bytes16 (mm_aesenc_si128 st (toBEBytes (round_keys.getD (x + 1) 0)))
      rw [mm_aesenc_eq_std st _ hP.1]
      exact bytes16_round hP (bytes16_toBEBytes _))
    (List.range 9) _ h1
  obtain ⟨heq, hB⟩ := hfold
  rw [heq] at hB
  rw [heq]
  rw [mm_aesenclast_eq_std _ _ hB.1]
  exact to_be_from_sse_toBE
    (bytes16_zipWith_xor (bytes16_shiftRowsL (bytes16_subBytesL hB))
      (bytes16_toBEBytes _))

theorem xor_cancel_left_nat (a b : Nat) : a ^^^ (a ^^^ b) = b := by
  rw [← Nat.xor_assoc, Nat.xor_self, Nat.zero_xor]

theorem bytes16_keygenassist {l : List Nat} {rc : Nat} (h : Bytes16 l)
    (hrc : rc < 256) : Bytes16 (mm_aeskeygenassist_si128 rc l) := by
  obtain ⟨a0, a1, a2, a3, a4, a5, a6, a7, a8, a9, a10, a11, a12, a13, a14, a15,
    rfl⟩ := exists_sixteen l h.1
  refine ⟨rfl, ?_⟩
  intro b hb
  simp only [mm_aeskeygenassist_si128, List.mem_cons, List.not_mem_nil,
    or_false] at hb
  rcases hb with rfl | rfl | rfl | rfl | rfl | rfl | rfl | rfl | rfl | rfl |
    rfl | rfl | rfl | rfl | rfl | rfl
  repeat first
    | exact xor_lt_256 (sbox_lt _) hrc
    | exact sbox_lt _

theorem bytes16_shuffle255 {l : List Nat} (h : Bytes16 l) :
    Bytes16 (mm_shuffle_epi32_255 l) := by
  obtain ⟨a0, a1, a2, a3, a4, a5, a6, a7, a8, a9, a10, a11, a12, a13, a14, a15,
    rfl⟩ := exists_sixteen l h.1
  have hb := h.2
  refine ⟨rfl, ?_⟩
  intro b hb2
  simp only [mm_shuffle_epi32_255, List.mem_cons, List.not_mem_nil,
    or_false] at hb2
  rcases hb2 with rfl | rfl | rfl | rfl | rfl | rfl | rfl | rfl | rfl | rfl |
    rfl | rfl | rfl | rfl | rfl | rfl <;> exact hb _ (by simp)

theorem bytes16_slli4 {l : List Nat} (h : Bytes16 l) :
    Bytes16 (mm_slli_si128_4 l) := by
  obtain ⟨a0, a1, a2, a3, a4, a5, a6, a7, a8, a9, a10, a11, a12, a13, a14, a15,
    rfl⟩ := exists_sixteen l h.1
  have hb := h.2
  refine ⟨rfl, ?_⟩
  intro b hb2
  simp only [mm_slli_si128_4, List.mem_cons, List.not_mem_nil, or_false] at hb2
  rcases hb2 with rfl | rfl | rfl | rfl | rfl | rfl | rfl | rfl | rfl | rfl |
    rfl | rfl | rfl | rfl | rfl | rfl
  repeat first
    | omega
    | exact hb _ (by simp)

theorem bytes16_assist {x y : List Nat} (hx : Bytes16 x) (hy : Bytes16 y) :
    Bytes16 (simd.key_expansion_assist x y) := by
  unfold simd.key_expansion_assist
  exact bytes16_zipWith_xor
    (bytes16_zipWith_xor
      (bytes16_zipWith_xor
        (bytes16_zipWith_xor hx (bytes16_slli4 hx))
        (bytes16_slli4 (bytes16_zipWith_xor hx (bytes16_slli4 hx))))
      (bytes16_slli4
        (bytes16_zipWith_xor
          (bytes16_zipWith_xor hx (bytes16_slli4 hx))
          (bytes16_slli4 (bytes16_zipWith_xor hx (bytes16_slli4 hx))))))
    (bytes16_shuffle255 hy)

theorem nat_xor_left_comm (a b c : Nat) : a ^^^ (b ^^^ c) = b ^^^ (a ^^^ c) := by
  rw [← Nat.xor_assoc, Nat.xor_comm a b, Nat.xor_assoc]

/-- One hardware key-schedule step agrees with one spec key-schedule step,
for any round constant below 256. -/
theorem key_expand_round_eq (key : Nat) (rc : Nat) (hrc : rc < 256) :
    to_be (from_sse_128 (simd.key_expansion_assist (to_sse_128 (to_be key))
      (mm_aeskeygenassist_si128 rc (to_sse_128 (to_be key))))) =
    sisd.key_expansion_round rc key := by
  have hBL : Bytes16 (toBEBytes key) := bytes16_toBEBytes key
  have hB3 : Bytes16 (simd.key_expansion_assist (to_sse_128 (to_be key))
      (mm_aeskeygenassist_si128 rc (to_sse_128 (to_be key)))) := by
    rw [to_sse_toBE]
    exact bytes16_assist hBL (bytes16_keygenassist hBL hrc)
  rw [to_be_from_sse_toBE hB3, to_sse_toBE]
  obtain ⟨k0, k1, k2, k3, k4, k5, k6, k7, k8, k9, k10, k11, k12, k13, k14, k15,
    hL⟩ := exists_sixteen (toBEBytes key) hBL.1
  rw [sisd.key_expansion_round, hL]
  simp only [simd.key_expansion_assist, mm_aeskeygenassist_si128,
    mm_shuffle_epi32_255, mm_slli_si128_4, mm_xor_si128,
    List.zipWith_cons_cons, List.zipWith_nil_right, List.zipWith_nil_left,
    sisd.subWordB, sisd.rotWordB, List.map_cons, List.map_nil,
    List.cons_append, List.nil_append]
  congr 1
  simp [Nat.xor_zero, Nat.zero_xor, Nat.xor_assoc, Nat.xor_comm,
    nat_xor_left_comm, Nat.xor_self, xor_cancel_left_nat]

theorem rcon_getD_lt (i : Nat) : simd.RCON.getD i 0 < 256 := by
  rcases i with _ | _ | _ | _ | _ | _ | _ | _ | _ | _ | i <;>
    simp [simd.RCON, List.getD]

theorem key_expand_i_eq (k : Nat) (i : Nat) :
    simd.key_expand_i k i = sisd.key_expansion_round (simd.RCON.getD i 0) k := by
  unfold simd.key_expand_i
  exact key_expand_round_eq k _ (rcon_getD_lt i)

/-- The two key expansion implementations agree on every key. -/
theorem simd_key_expansion_eq_sisd (key : Nat) :
    simd.key_expansion key = sisd.key_expansion key := by
  simp only [simd.key_expansion, sisd.key_expansion, key_expand_i_eq]
  rfl

theorem key_expansion_hw_eq (hw : Bool) (key : Nat) :
    key_expansion hw key = sisd.key_expansion key := by
  cases hw <;> simp [key_expansion, simd_key_expansion_eq_sisd]

theorem cipher_hw_eq (hw : Bool) (state : Nat) (rks : List Nat) :
    cipher hw state rks = sisd.cipher state rks := by
  cases hw <;> simp [cipher, simd_cipher_eq_sisd]

theorem chunks16Aux_congr :
    ∀ (f1 : Nat), ∀ (f2 : Nat) (l : List Nat), l.length ≤ f1 → l.length ≤ f2 →
      chunks16Aux f1 l = chunks16Aux f2 l := by
  intro f1
  induction f1 with
  | zero =>
    intro f2 l h1 h2
    have : l = [] := List.eq_nil_of_length_eq_zero (by omega)
    subst this
    cases f2 <;> rfl
  | succ f1 ih =>
    intro f2 l h1 h2
    cases l with
    | nil => cases f2 <;> rfl
    | cons a t =>
      cases f2 with
      | zero => simp at h2
      | succ f2 =>
        show List.take 16 (a :: t) :: chunks16Aux f1 (List.drop 16 (a :: t)) =
          List.take 16 (a :: t) :: chunks16Aux f2 (List.drop 16 (a :: t))
        have hd : (List.drop 16 (a :: t)).length = (a :: t).length - 16 :=
          List.length_drop 16 (a :: t)
        rw [ih f2 (List.drop 16 (a :: t)) (by simp at h1 ⊢; omega)
          (by simp at h2 ⊢; omega)]

theorem chunks16_nil : chunks16 [] = [] := rfl

theorem chunks16_cons (l : List Nat) (h : l ≠ []) :
    chunks16 l = l.take 16 :: chunks16 (l.drop 16) := by
  cases l with
  | nil => exact absurd rfl h
  | cons a t =>
    show chunks16Aux (a :: t).length (a :: t) = _
    have : (a :: t).length = t.length + 1 := rfl
    rw [this]
    show List.take 16 (a :: t) :: chunks16Aux t.length (List.drop 16 (a :: t)) = _
    rw [chunks16Aux_congr t.length (List.drop 16 (a :: t)).length
      (List.drop 16 (a :: t)) (by simp only [List.length_drop, List.length_cons]; omega)
      (by omega)]
    rfl

theorem num_128_blks_step (len : Nat) (h : 0 < len) :
    num_128_blks len = num_128_blks (len - 16) + 1 := by
  unfold num_128_blks
  omega

/-- The in-place CTR XOR pass of aes_encrypt_decrypt, abstracted over the
keystream function KS. -/
def ctrOut (KS : Nat → List Nat) (data : List Nat) (base : Nat) : List Nat :=
  (List.zipWith (fun block ctr => List.zipWith HXor.hXor block (KS ctr))
    (chunks16 data) ((List.range (num_128_blks data.length)).map
      (fun k => (k + base) % 2 ^ 128))).flatten

theorem ctrOut_nil (KS : Nat → List Nat) (base : Nat) : ctrOut KS [] base = [] := rfl

theorem ctrOut_cons (KS : Nat → List Nat) (data : List Nat) (base : Nat)
    (h : data ≠ []) :
    ctrOut KS data base =
      List.zipWith HXor.hXor (data.take 16) (KS (base % 2 ^ 128)) ++
        ctrOut KS (data.drop 16) (base + 1) := by
  unfold ctrOut
  rw [chunks16_cons data h,
    num_128_blks_step data.length (by cases data; simp at h; simp),
    List.range_succ_eq_map]
  have hfun : ((fun k => (k + base) % 2 ^ 128) ∘ Nat.succ) =
      (fun k => (k + (base + 1)) % 2 ^ 128) := by
    funext k
    simp only [Function.comp_apply]
    congr 1
    omega
  simp only [List.map_cons, List.map_map, List.zipWith_cons_cons,
    List.flatten_cons, List.length_drop, hfun, Nat.zero_add]

theorem zipWith_getElem?_eq {α β γ : Type} {f : α → β → γ} {l1 : List α}
    {l2 : List β} {i : Nat} {x : α} {y : β}
    (h1 : l1[i]? = some x) (h2 : l2[i]? = some y) :
    (List.zipWith f l1 l2)[i]? = some (f x y) := by
  rw [List.getElem?_zipWith', h1, h2]
  rfl

theorem getD_eq_getElem?_some {l : List Nat} {i : Nat} {x : Nat}
    (h : l[i]? = some x) : l.getD i 0 = x := by
  rw [List.getD_eq_getElem?_getD, h]
  rfl

theorem getElem?_eq_some_getD {l : List Nat} {i : Nat} (h : i < l.length) :
    l[i]? = some (l.getD i 0) := by
  rw [List.getElem?_eq_getElem h, List.getD_eq_getElem l 0 h]

/-- Per-byte characterisation of the CTR XOR pass: the output has the same
length as the input and its j-th byte is the input byte XOR-ed with byte
j mod 16 of the keystream for block j / 16. -/
theorem ctrOut_spec (KS : Nat → List Nat) (hKS : ∀ c, (KS c).length = 16) :
    ∀ (n : Nat) (data : List Nat) (base : Nat), data.length = n →
      (ctrOut KS data base).length = data.length ∧
      ∀ j : Nat, j < data.length →
        (ctrOut KS data base)[j]? =
          some (data.getD j 0 ^^^ (KS ((j / 16 + base) % 2 ^ 128)).getD (j % 16) 0) := by
  intro n
  induction n using Nat.strong_induction_on with
  | _ n ih =>
    intro data base hlen
    cases data with
    | nil =>
      refine ⟨rfl, ?_⟩
      intro j hj
      simp at hj
    | cons a t =>
      rw [ctrOut_cons KS (a :: t) base (by simp)]
      have hlen' : (List.drop 16 (a :: t)).length = (a :: t).length - 16 :=
        List.length_drop 16 (a :: t)
      have hlt : (List.drop 16 (a :: t)).length < n := by
        simp only [List.length_cons] at hlen
        simp only [hlen', List.length_cons]
        omega
      obtain ⟨ihlen, ihidx⟩ := ih _ hlt (List.drop 16 (a :: t)) (base + 1) rfl
      have hheadlen :
          (List.zipWith HXor.hXor ((a :: t).take 16) (KS (base % 2 ^ 128))).length =
            min 16 (a :: t).length := by
        rw [List.length_zipWith, hKS, List.length_take]
        omega
      constructor
      · rw [List.length_append, hheadlen, ihlen, hlen']
        simp only [List.length_cons]
        omega
      · intro j hj
        rw [List.getElem?_append]
        by_cases hj16 : j < 16
        · rw [if_pos (by rw [hheadlen]; omega)]
          have h1 : ((a :: t).take 16)[j]? = some ((a :: t).getD j 0) := by
            rw [List.getElem?_take, if_pos hj16]
            exact getElem?_eq_some_getD hj
          have h2 : (KS (base % 2 ^ 128))[j]? =
              some ((KS (base % 2 ^ 128)).getD j 0) :=
            getElem?_eq_some_getD (by rw [hKS]; omega)
          rw [zipWith_getElem?_eq h1 h2]
          have e1 : j / 16 = 0 := Nat.div_eq_of_lt hj16
          have e2 : j % 16 = j := Nat.mod_eq_of_lt hj16
          rw [e1, e2, Nat.zero_add]
        · rw [if_neg (by rw [hheadlen]; omega)]
          have hhl : (List.zipWith HXor.hXor ((a :: t).take 16)
              (KS (base % 2 ^ 128))).length = 16 := by
            rw [hheadlen]
            simp only [List.length_cons] at hj ⊢
            omega
          rw [hhl]
          rw [ihidx (j - 16) (by rw [hlen']; simp only [List.length_cons] at hj ⊢; omega)]
          have e0 : (List.drop 16 (a :: t)).getD (j - 16) 0 = (a :: t).getD j 0 := by
            rw [List.getD_eq_getElem?_getD, List.getD_eq_getElem?_getD,
              List.getElem?_drop]
            have : 16 + (j - 16) = j := by omega
            rw [this]
          have e1 : (j - 16) / 16 + (base + 1) = j / 16 + base := by omega
          have e2 : (j - 16) % 16 = j % 16 := by omega
          rw [e0, e1, e2]

theorem chunks16_length (l : List Nat) :
    (chunks16 l).length = num_128_blks l.length := by
  generalize hn : l.length = n
  induction n using Nat.strong_induction_on generalizing l with
  | _ n ih =>
    cases l with
    | nil =>
      subst hn
      rfl
    | cons a t =>
      subst hn
      rw [chunks16_cons (a :: t) (by simp)]
      have hd : (List.drop 16 (a :: t)).length = (a :: t).length - 16 :=
        List.length_drop 16 (a :: t)
      have hlt : (List.drop 16 (a :: t)).length < (a :: t).length := by
        rw [hd]
        simp only [List.length_cons]
        omega
      rw [List.length_cons, ih _ hlt _ rfl, hd,
        num_128_blks_step (a :: t).length (by simp)]

theorem chunks16_flatten (l : List Nat) : (chunks16 l).flatten = l := by
  generalize hn : l.length = n
  induction n using Nat.strong_induction_on generalizing l with
  | _ n ih =>
    cases l with
    | nil => rfl
    | cons a t =>
      subst hn
      rw [chunks16_cons (a :: t) (by simp), List.flatten_cons,
        ih (List.drop 16 (a :: t)).length
          (by simp only [List.length_drop, List.length_cons]; omega) _ rfl,
        List.take_append_drop]

theorem chunks16_getElem? (l : List Nat) :
    ∀ i : Nat, i < num_128_blks l.length →
      (chunks16 l)[i]? = some ((l.drop (16 * i)).take 16) := by
  generalize hn : l.length = n
  induction n using Nat.strong_induction_on generalizing l with
  | _ n ih =>
    intro i hi
    cases l with
    | nil =>
      subst hn
      simp [num_128_blks] at hi
    | cons a t =>
      subst hn
      rw [chunks16_cons (a :: t) (by simp)]
      cases i with
      | zero =>
        simp only [List.getElem?_cons_zero, Nat.mul_zero, List.drop_zero]
      | succ i =>
        rw [List.getElem?_cons_succ]
        have hd : (List.drop 16 (a :: t)).length = (a :: t).length - 16 :=
          List.length_drop 16 (a :: t)
        have hstep : num_128_blks (a :: t).length =
            num_128_blks ((a :: t).length - 16) + 1 :=
          num_128_blks_step _ (by simp)
        rw [hstep] at hi
        rw [ih (List.drop 16 (a :: t)).length
          (by rw [hd]; simp only [List.length_cons]; omega) _ rfl i
          (by rw [hd]; omega)]
        rw [List.drop_drop]
        have harith : 16 + 16 * i = 16 * (i + 1) := by ring
        rw [harith]

theorem aes_encrypt_decrypt_some_eq (hw : Bool) (rng : Nat)
    (data key : List Nat) (iv : Nat) :
    aes_encrypt_decrypt hw rng data key (some iv) =
      (ctrOut (fun c => toLEBytes (cipher hw c (key_expansion hw (fromLEBytes key))))
        data iv, iv) := rfl

theorem aes_encrypt_decrypt_none_eq (hw : Bool) (rng : Nat)
    (data key : List Nat) :
    aes_encrypt_decrypt hw rng data key none =
      (ctrOut (fun c => toLEBytes (cipher hw c (key_expansion hw (fromLEBytes key))))
        data (rng % 2 ^ 128), rng % 2 ^ 128) := rfl

theorem decompose_length (hw : Bool) (rng : Nat) (data key : List Nat)
    (iv : Option Nat) :
    (AesBlock.decompose hw rng data key iv).length = num_128_blks data.length := by
  unfold AesBlock.decompose
  rw [List.length_zipWith, chunks16_length, List.length_map, List.length_range]
  exact Nat.min_self _

theorem decompose_getElem? (hw : Bool) (rng : Nat) (data key : List Nat)
    (iv : Nat) (i : Nat) (hi : i < num_128_blks data.length) :
    (AesBlock.decompose hw rng data key (some iv))[i]? =
      some (AesBlock.mk ((i + iv) % 2 ^ 128) ((data.drop (16 * i)).take 16)
        (key_expansion hw (fromLEBytes key))) := by
  unfold AesBlock.decompose
  have h1 := chunks16_getElem? data i hi
  have h2 : ((List.range (num_128_blks data.length)).map
      (fun n => (n + iv) % 2 ^ 128))[i]? = some ((i + iv) % 2 ^ 128) := by
    rw [List.getElem?_map, List.getElem?_range hi]
    rfl
  exact zipWith_getElem?_eq h1 h2

theorem run_block_length (hw : Bool) (rks : List Nat) (iv : Nat)
    (buf : List Nat) (i : Nat) : (run_block hw rks iv buf i).length = buf.length := by
  unfold run_block
  rw [List.length_append, List.length_append, List.length_zipWith,
    List.length_take, List.length_take, List.length_drop, List.length_drop,
    toLEBytes_length]
  omega

theorem run_block_getElem? (hw : Bool) (rks : List Nat) (iv : Nat)
    (buf : List Nat) (i p : Nat) :
    (run_block hw rks iv buf i)[p]? =
      if 16 * i ≤ p ∧ p < 16 * i + 16 ∧ p < buf.length then
        some (buf.getD p 0 ^^^
          (toLEBytes (cipher hw ((i + iv) % 2 ^ 128) rks)).getD (p - 16 * i) 0)
      else buf[p]? := by
  have hks : (toLEBytes (cipher hw ((i + iv) % 2 ^ 128) rks)).length = 16 :=
    toLEBytes_length _
  have hzl : (List.zipWith HXor.hXor (List.take 16 (List.drop (16 * i) buf))
      (toLEBytes (cipher hw ((i + iv) % 2 ^ 128) rks))).length =
      min 16 (buf.length - 16 * i) := by
    rw [List.length_zipWith, List.length_take, List.length_drop, hks]
    omega
  unfold run_block
  rw [List.getElem?_append, List.getElem?_append, List.length_append, hzl,
    List.length_take]
  split_ifs with c1 c2 ct ct ct
  · omega
  · rw [List.getElem?_take, if_pos (by omega)]
  · obtain ⟨ht1, ht2, ht3⟩ := ct
    have hq : p - min (16 * i) buf.length = p - 16 * i := by omega
    rw [hq]
    have hb1 : (List.take 16 (List.drop (16 * i) buf))[p - 16 * i]? =
        some (buf.getD p 0) := by
      rw [List.getElem?_take, if_pos (by omega), List.getElem?_drop,
        show 16 * i + (p - 16 * i) = p by omega]
      exact getElem?_eq_some_getD ht3
    have hb2 : (toLEBytes (cipher hw ((i + iv) % 2 ^ 128) rks))[p - 16 * i]? =
        some ((toLEBytes (cipher hw ((i + iv) % 2 ^ 128) rks)).getD (p - 16 * i) 0) :=
      getElem?_eq_some_getD (by rw [hks]; omega)
    exact zipWith_getElem?_eq hb1 hb2
  · omega
  · omega
  · rw [List.getElem?_drop]
    by_cases hpl : p < buf.length
    · congr 1
      omega
    · rw [List.getElem?_eq_none (by omega), List.getElem?_eq_none (by omega)]

theorem run_block_getD_outside (hw : Bool) (rks : List Nat) (iv : Nat)
    (buf : List Nat) (i p : Nat)
    (h : ¬(16 * i ≤ p ∧ p < 16 * i + 16 ∧ p < buf.length)) :
    (run_block hw rks iv buf i).getD p 0 = buf.getD p 0 := by
  rw [List.getD_eq_getElem?_getD, List.getD_eq_getElem?_getD,
    run_block_getElem?, if_neg h]

/-- Two block tasks write to disjoint sub-slices, so their effects on the
shared buffer commute. -/
theorem run_block_comm (hw : Bool) (rks : List Nat) (iv : Nat)
    (buf : List Nat) (i j : Nat) :
    run_block hw rks iv (run_block hw rks iv buf i) j =
      run_block hw rks iv (run_block hw rks iv buf j) i := by
  by_cases hij : i = j
  · rw [hij]
  · apply List.ext_getElem?
    intro p
    rw [run_block_getElem? hw rks iv (run_block hw rks iv buf i) j p,
      run_block_getElem? hw rks iv (run_block hw rks iv buf j) i p,
      run_block_length, run_block_length,
      run_block_getElem? hw rks iv buf i p,
      run_block_getElem? hw rks iv buf j p]
    split_ifs with h1 h2 h3
    · omega
    · rw [run_block_getD_outside hw rks iv buf i p h2]
    · rw [run_block_getD_outside hw rks iv buf j p h1]
    · rfl

/-- After running the first k block tasks serially on the shared buffer,
bytes below 16*k carry the CTR result and the rest are untouched. -/
theorem foldl_run_block_spec (hw : Bool) (rks : List Nat) (iv : Nat)
    (data : List Nat) :
    ∀ k : Nat,
      ((List.range k).foldl (run_block hw rks iv) data).length = data.length ∧
      ∀ p : Nat, p < data.length →
        ((List.range k).foldl (run_block hw rks iv) data)[p]? =
          if p < 16 * k then
            some (data.getD p 0 ^^^
              (toLEBytes (cipher hw ((p / 16 + iv) % 2 ^ 128) rks)).getD (p % 16) 0)
          else some (data.getD p 0) := by
  intro k
  induction k with
  | zero =>
    refine ⟨rfl, ?_⟩
    intro p hp
    rw [if_neg (by omega)]
    exact getElem?_eq_some_getD hp
  | succ k ih =>
    rw [List.range_succ, List.foldl_append, List.foldl_cons, List.foldl_nil]
    refine ⟨by rw [run_block_length, ih.1], ?_⟩
    intro p hp
    rw [run_block_getElem?, ih.1]
    by_cases hc : 16 * k ≤ p ∧ p < 16 * k + 16 ∧ p < data.length
    · rw [if_pos hc]
      have hprev : ((List.range k).foldl (run_block hw rks iv) data).getD p 0 =
          data.getD p 0 := by
        rw [List.getD_eq_getElem?_getD, ih.2 p hp, if_neg (by omega)]
        rfl
      rw [hprev, if_pos (by omega)]
      have e1 : k + iv = p / 16 + iv := by omega
      have e2 : p - 16 * k = p % 16 := by omega
      rw [e1, e2]
    · rw [if_neg hc, ih.2 p hp]
      by_cases hk : p < 16 * k
      · rw [if_pos hk, if_pos (by omega)]
      · rw [if_neg hk, if_neg (by omega)]

/-- Running all block tasks serially over the shared buffer computes
exactly the CTR XOR pass. -/
theorem foldl_run_block_eq_ctrOut (hw : Bool) (rks : List Nat) (iv : Nat)
    (data : List Nat) :
    (List.range (num_128_blks data.length)).foldl (run_block hw rks iv) data =
      ctrOut (fun c => toLEBytes (cipher hw c rks)) data iv := by
  obtain ⟨hl1, hi1⟩ := foldl_run_block_spec hw rks iv data (num_128_blks data.length)
  obtain ⟨hl2, hi2⟩ := ctrOut_spec (fun c => toLEBytes (cipher hw c rks))
    (fun c => toLEBytes_length _) data.length data iv rfl
  apply List.ext_getElem?
  intro p
  by_cases hp : p < data.length
  · rw [hi1 p hp, hi2 p hp, if_pos (by unfold num_128_blks; omega)]
  · rw [List.getElem?_eq_none (by rw [hl1]; omega),
      List.getElem?_eq_none (by rw [hl2]; omega)]

/-- Wrap-around modulus of the AtomicUsize task counter on a 64-bit machine. -/
def W64 : Nat := 2 ^ 64

/-- Counter state of the scoped thread pool: NewTask messages sent into the
queue, fetch_add increments performed, messages received by workers, thunks
run to completion, fetch_sub decrements performed, and the current value of
the num_tasks AtomicUsize. -/
structure PoolState where
  sent : Nat
  inced : Nat
  started : Nat
  executed : Nat
  deced : Nat
  ctr : Nat
deriving Repr, DecidableEq

/-- The pool state on scope entry: counter zero, nothing sent. -/
def initPool : PoolState := ⟨0, 0, 0, 0, 0, 0⟩

/-- Interleaving semantics of ThreadPoolScope::assign_task and the Worker
loop of src/cpu/scoped_thread_pool.rs for a scope body that assigns n
tasks. As in the source, assign_task first sends the NewTask message and
only afterwards increments num_tasks (fetch_add); a worker receives a
message, runs the thunk to completion, and then decrements num_tasks
(fetch_sub, which wraps around on an AtomicUsize). -/
inductive PoolStep (n : Nat) : PoolState → PoolState → Prop
  | send (s : PoolState) (h1 : s.sent = s.inced) (h2 : s.sent < n) :
      PoolStep n s { s with sent := s.sent + 1 }
  | inc (s : PoolState) (h : s.inced < s.sent) :
      PoolStep n s { s with inced := s.inced + 1, ctr := (s.ctr + 1) % W64 }
  | recv (s : PoolState) (h : s.started < s.sent) :
      PoolStep n s { s with started := s.started + 1 }
  | finish (s : PoolState) (h : s.executed < s.started) :
      PoolStep n s { s with executed := s.executed + 1 }
  | dec (s : PoolState) (h : s.deced < s.executed) :
      PoolStep n s { s with deced := s.deced + 1, ctr := (s.ctr + (W64 - 1)) % W64 }

/-- States the pool can reach from scope entry. -/
def PoolReachable (n : Nat) (s : PoolState) : Prop :=
  Relation.ReflTransGen (PoolStep n) initPool s

/-- Inductive invariant of the pool counters. -/
def PoolInv (n : Nat) (s : PoolState) : Prop :=
  s.inced ≤ s.sent ∧ s.sent ≤ s.inced + 1 ∧ s.sent ≤ n ∧
  s.started ≤ s.sent ∧ s.executed ≤ s.started ∧ s.deced ≤ s.executed ∧
  s.ctr = if s.deced ≤ s.inced then s.inced - s.deced else W64 - 1

theorem poolInv_init (n : Nat) : PoolInv n initPool := by
  simp [PoolInv, initPool]

theorem poolInv_step {n : Nat} {s s' : PoolState} (hn : n < W64)
    (hInv : PoolInv n s) (hstep : PoolStep n s s') : PoolInv n s' := by
  have hW : W64 = 18446744073709551616 := by norm_num [W64]
  obtain ⟨i1, i2, i3, i4, i5, i6, i7⟩ := hInv
  rw [hW] at i7 hn
  cases hstep with
  | send h1 h2 =>
    refine ⟨by simp; omega, by simp; omega, by simp; omega, by simp; omega,
      by simp; omega, by simp; omega, ?_⟩
    simp only [hW]
    split at i7 <;> split <;> simp_all <;> omega
  | inc h =>
    refine ⟨by simp; omega, by simp; omega, by simp; omega, by simp; omega,
      by simp; omega, by simp; omega, ?_⟩
    simp only [hW]
    split at i7 <;> split <;> simp_all <;> omega
  | recv h =>
    refine ⟨by simp; omega, by simp; omega, by simp; omega, by simp; omega,
      by simp; omega, by simp; omega, ?_⟩
    simp only [hW]
    split at i7 <;> split <;> simp_all <;> omega
  | finish h =>
    refine ⟨by simp; omega, by simp; omega, by simp; omega, by simp; omega,
      by simp; omega, by simp; omega, ?_⟩
    simp only [hW]
    split at i7 <;> split <;> simp_all <;> omega
  | dec h =>
    refine ⟨by simp; omega, by simp; omega, by simp; omega, by simp; omega,
      by simp; omega, by simp; omega, ?_⟩
    simp only [hW]
    split at i7 <;> split <;> simp_all <;> omega

theorem poolInv_reachable {n : Nat} {s : PoolState} (hn : n < W64)
    (h : PoolReachable n s) : PoolInv n s := by
  induction h with
  | refl => exact poolInv_init n
  | tail hr hstep ih => exact poolInv_step hn ih hstep

theorem aes_encrypt_decrypt_fst (hw : Bool) (rng : Nat) (data key : List Nat)
    (iv : Nat) :
    (aes_encrypt_decrypt hw rng data key (some iv)).fst =
      ctrOut (fun c => toLEBytes (cipher hw c (key_expansion hw (fromLEBytes key))))
        data iv := rfl

theorem aes_encrypt_fst (hw : Bool) (rng : Nat) (data key : List Nat) :
    (aes_encrypt hw rng data key).fst =
      ctrOut (fun c => toLEBytes (cipher hw c (key_expansion hw (fromLEBytes key))))
        data (rng % 2 ^ 128) := rfl

theorem aes_encrypt_snd (hw : Bool) (rng : Nat) (data key : List Nat) :
    (aes_encrypt hw rng data key).snd = rng % 2 ^ 128 := rfl

/-- Claim C1: for every 16-byte key, every buffer and every 128-bit IV,
aes_encrypt_decrypt performs CTR mode in place: the result keeps the
buffer's length, byte j of the result is the original byte XOR-ed with
byte j mod 16 of the little-endian bytes of Cipher((IV + j/16) mod 2^128,
schedule), and in particular a 17-byte buffer encrypts to exactly 17 bytes
whose last byte is the original last byte XOR the least significant byte
of the second keystream block. -/
theorem aes_encrypt_decrypt_ctr_correct (hw : Bool) (rng : Nat)
    (data key : List Nat) (iv : Nat) (hkey : key.length = 16)
    (hiv : iv < 2 ^ 128) :
    ((aes_encrypt_decrypt hw rng data key (some iv)).fst).length = data.length ∧
    (∀ j : Nat, j < data.length →
      ((aes_encrypt_decrypt hw rng data key (some iv)).fst)[j]? =
        some (data.getD j 0 ^^^
          (toLEBytes (cipher hw ((iv + j / 16) % 2 ^ 128)
            (key_expansion hw (fromLEBytes key)))).getD (j % 16) 0)) ∧
    (data.length = 17 →
      ((aes_encrypt_decrypt hw rng data key (some iv)).fst)[16]? =
        some (data.getD 16 0 ^^^
          (toLEBytes (cipher hw ((iv + 1) % 2 ^ 128)
            (key_expansion hw (fromLEBytes key)))).getD 0 0)) := by
  obtain ⟨hl, hidx⟩ := ctrOut_spec
    (fun c => toLEBytes (cipher hw c (key_expansion hw (fromLEBytes key))))
    (fun c => toLEBytes_length _) data.length data iv rfl
  refine ⟨?_, ?_, ?_⟩
  · rw [aes_encrypt_decrypt_fst]
    exact hl
  · intro j hj
    rw [aes_encrypt_decrypt_fst]
    have h := hidx j hj
    rwa [Nat.add_comm (j / 16) iv] at h
  · intro h17
    rw [aes_encrypt_decrypt_fst]
    have h := hidx 16 (by omega)
    rw [show (16 : Nat) / 16 = 1 by norm_num, show (16 : Nat) % 16 = 0 by norm_num,
      Nat.add_comm 1 iv] at h
    exact h

/-- Witness for C1 at a concrete 17-byte buffer, the NIST key and IV. -/
theorem aes_encrypt_decrypt_ctr_correct_witness :
    (toLEBytes 0x2b7e151628aed2a6abf7158809cf4f3c).length = 16 ∧
    (0xf0f1f2f3f4f5f6f7f8f9fafbfcfdfeff : Nat) < 2 ^ 128 ∧
    (((aes_encrypt_decrypt false 0 (List.replicate 17 0xab)
        (toLEBytes 0x2b7e151628aed2a6abf7158809cf4f3c)
        (some 0xf0f1f2f3f4f5f6f7f8f9fafbfcfdfeff)).fst).length =
      (List.replicate 17 0xab).length ∧
    (∀ j : Nat, j < (List.replicate 17 0xab).length →
      ((aes_encrypt_decrypt false 0 (List.replicate 17 0xab)
          (toLEBytes 0x2b7e151628aed2a6abf7158809cf4f3c)
          (some 0xf0f1f2f3f4f5f6f7f8f9fafbfcfdfeff)).fst)[j]? =
        some ((List.replicate 17 0xab).getD j 0 ^^^
          (toLEBytes (cipher false ((0xf0f1f2f3f4f5f6f7f8f9fafbfcfdfeff + j / 16) % 2 ^ 128)
            (key_expansion false (fromLEBytes
              (toLEBytes 0x2b7e151628aed2a6abf7158809cf4f3c))))).getD (j % 16) 0)) ∧
    ((List.replicate 17 0xab : List Nat).length = 17 →
      ((aes_encrypt_decrypt false 0 (List.replicate 17 0xab)
          (toLEBytes 0x2b7e151628aed2a6abf7158809cf4f3c)
          (some 0xf0f1f2f3f4f5f6f7f8f9fafbfcfdfeff)).fst)[16]? =
        some ((List.replicate 17 0xab).getD 16 0 ^^^
          (toLEBytes (cipher false ((0xf0f1f2f3f4f5f6f7f8f9fafbfcfdfeff + 1) % 2 ^ 128)
            (key_expansion false (fromLEBytes
              (toLEBytes 0x2b7e151628aed2a6abf7158809cf4f3c))))).getD 0 0))) :=
  ⟨by decide, by norm_num,
    aes_encrypt_decrypt_ctr_correct false 0 (List.replicate 17 0xab)
      (toLEBytes 0x2b7e151628aed2a6abf7158809cf4f3c)
      0xf0f1f2f3f4f5f6f7f8f9fafbfcfdfeff (by decide) (by norm_num)⟩

/-- Claim C2: decrypting with the same key and the IV returned by
aes_encrypt restores the buffer to exactly its original contents. -/
theorem aes_decrypt_aes_encrypt (hw : Bool) (rng : Nat)
    (data key : List Nat) (hkey : key.length = 16) :
    aes_decrypt hw (aes_encrypt hw rng data key).fst key
      (aes_encrypt hw rng data key).snd = data := by
  have hKSlen : ∀ c : Nat, ((fun c => toLEBytes (cipher hw c
      (key_expansion hw (fromLEBytes key)))) c).length = 16 :=
    fun c => toLEBytes_length _
  obtain ⟨hl1, hi1⟩ := ctrOut_spec _ hKSlen data.length data (rng % 2 ^ 128) rfl
  obtain ⟨hl2, hi2⟩ := ctrOut_spec _ hKSlen
    (ctrOut (fun c => toLEBytes (cipher hw c (key_expansion hw (fromLEBytes key))))
      data (rng % 2 ^ 128)).length
    (ctrOut (fun c => toLEBytes (cipher hw c (key_expansion hw (fromLEBytes key))))
      data (rng % 2 ^ 128)) (rng % 2 ^ 128) rfl
  show ctrOut (fun c => toLEBytes (cipher hw c (key_expansion hw (fromLEBytes key))))
      (ctrOut (fun c => toLEBytes (cipher hw c (key_expansion hw (fromLEBytes key))))
        data (rng % 2 ^ 128)) (rng % 2 ^ 128) = data
  apply List.ext_getElem?
  intro p
  by_cases hp : p < data.length
  · rw [hi2 p (by rw [hl1]; exact hp)]
    have e := getD_eq_getElem?_some (hi1 p hp)
    rw [e, Nat.xor_assoc, Nat.xor_self, Nat.xor_zero]
    exact (getElem?_eq_some_getD hp).symm
  · rw [List.getElem?_eq_none (by rw [hl2, hl1]; omega),
      List.getElem?_eq_none (by omega)]

/-- Witness for C2 at a concrete 3-byte buffer and the NIST key. -/
theorem aes_decrypt_aes_encrypt_witness :
    (toLEBytes 0x2b7e151628aed2a6abf7158809cf4f3c).length = 16 ∧
    aes_decrypt false
      (aes_encrypt false 5 [1, 2, 3] (toLEBytes 0x2b7e151628aed2a6abf7158809cf4f3c)).fst
      (toLEBytes 0x2b7e151628aed2a6abf7158809cf4f3c)
      (aes_encrypt false 5 [1, 2, 3] (toLEBytes 0x2b7e151628aed2a6abf7158809cf4f3c)).snd =
      [1, 2, 3] :=
  ⟨by decide, aes_decrypt_aes_encrypt false 5 [1, 2, 3]
    (toLEBytes 0x2b7e151628aed2a6abf7158809cf4f3c) (by decide)⟩

/-- Claim C10: with an explicitly supplied IV, aes_encrypt_decrypt is
deterministic: it never consults the entropy oracle (the result does not
depend on the rng parameter), and it returns exactly the supplied IV. -/
theorem aes_encrypt_decrypt_deterministic (hw : Bool) (rng1 rng2 : Nat)
    (data key : List Nat) (iv : Nat) :
    aes_encrypt_decrypt hw rng1 data key (some iv) =
      aes_encrypt_decrypt hw rng2 data key (some iv) ∧
    (aes_encrypt_decrypt hw rng1 data key (some iv)).snd = iv :=
  ⟨rfl, rfl⟩

/-- Claim C3: the hardware and software backends produce identical
round-key schedules for every key and identical cipher outputs for every
state and length-11 schedule; both match the NIST single-block vector, so
the runtime backend selection in key_expansion and cipher has no effect
on any output. -/
theorem backends_observationally_equivalent :
    (∀ key : Nat, simd.key_expansion key = sisd.key_expansion key) ∧
    (∀ (state : Nat) (rks : List Nat), rks.length = 11 →
      simd.cipher state rks = sisd.cipher state rks) ∧
    simd.cipher 0x6bc1bee22e409f96e93d7e117393172a
        (simd.key_expansion 0x2b7e151628aed2a6abf7158809cf4f3c) =
      0x3ad77bb40d7a3660a89ecaf32466ef97 ∧
    sisd.cipher 0x6bc1bee22e409f96e93d7e117393172a
        (sisd.key_expansion 0x2b7e151628aed2a6abf7158809cf4f3c) =
      0x3ad77bb40d7a3660a89ecaf32466ef97 ∧
    (∀ (hw1 hw2 : Bool) (key state : Nat) (rks : List Nat),
      key_expansion hw1 key = key_expansion hw2 key ∧
      cipher hw1 state rks = cipher hw2 state rks) := by
  refine ⟨simd_key_expansion_eq_sisd,
    fun state rks _ => simd_cipher_eq_sisd state rks, by decide, by decide, ?_⟩
  intro hw1 hw2 key state rks
  exact ⟨by rw [key_expansion_hw_eq, key_expansion_hw_eq],
    by rw [cipher_hw_eq, cipher_hw_eq]⟩

/-- Witness for C3 at a concrete state and an explicit length-11 schedule. -/
theorem backends_observationally_equivalent_witness :
    ([3, 1, 4, 1, 5, 9, 2, 6, 5, 3, 5] : List Nat).length = 11 ∧
    simd.cipher 7 [3, 1, 4, 1, 5, 9, 2, 6, 5, 3, 5] =
      sisd.cipher 7 [3, 1, 4, 1, 5, 9, 2, 6, 5, 3, 5] :=
  ⟨by decide, backends_observationally_equivalent.2.1 7
    [3, 1, 4, 1, 5, 9, 2, 6, 5, 3, 5] (by decide)⟩

/-- Claim C4: key_expansion returns exactly eleven round keys, the first
equal to the input key, each following key obtained from its predecessor
by the standard AES-128 schedule step (rotate the top word one byte, S-box
bytewise, XOR the round constant into the most significant byte, cascade
the XOR over the four words); the NIST key expands to the standard
schedule ending in 0xd014f9a8c9ee2589e13f0cc8b6630ca6. -/
theorem key_expansion_schedule (hw : Bool) (key : Nat) :
    (key_expansion hw key).length = 11 ∧
    (key_expansion hw key).getD 0 0 = key ∧
    (∀ i : Nat, i < 10 →
      (key_expansion hw key).getD (i + 1) 0 =
        sisd.key_expansion_round (sisd.RCON.getD i 0)
          ((key_expansion hw key).getD i 0)) ∧
    key_expansion hw 0x2b7e151628aed2a6abf7158809cf4f3c = [
      0x2b7e151628aed2a6abf7158809cf4f3c,
      0xa0fafe1788542cb123a339392a6c7605,
      0xf2c295f27a96b9435935807a7359f67f,
      0x3d80477d4716fe3e1e237e446d7a883b,
      0xef44a541a8525b7fb671253bdb0bad00,
      0xd4d1c6f87c839d87caf2b8bc11f915bc,
      0x6d88a37a110b3efddbf98641ca0093fd,
      0x4e54f70e5f5fc9f384a64fb24ea6dc4f,
      0xead27321b58dbad2312bf5607f8d292f,
      0xac7766f319fadc2128d12941575c006e,
      0xd014f9a8c9ee2589e13f0cc8b6630ca6] := by
  rw [key_expansion_hw_eq, key_expansion_hw_eq]
  refine ⟨rfl, rfl, ?_, by decide⟩
  intro i hi
  interval_cases i <;> rfl

/-- Witness for C4: schedule step 3 to 4 on the zero key. -/
theorem key_expansion_schedule_witness :
    (3 : Nat) < 10 ∧
    (key_expansion false 0).getD 4 0 =
      sisd.key_expansion_round (sisd.RCON.getD 3 0)
        ((key_expansion false 0).getD 3 0) :=
  ⟨by decide, (key_expansion_schedule false 0).2.2.1 3 (by decide)⟩

/-- Claim C7: block index i receives counter (iv + i) mod 2^128 with
wrap-around addition for every IV, and the CTR operation is well defined
and length-preserving regardless of the IV value. -/
theorem ctr_counter_wraparound (hw : Bool) (rng : Nat) (data key : List Nat)
    (iv : Nat) (i : Nat) (hi : i < num_128_blks data.length) :
    ((AesBlock.decompose hw rng data key (some iv))[i]?).map AesBlock.ctr_block =
      some ((i + iv) % 2 ^ 128) ∧
    ((aes_encrypt_decrypt hw rng data key (some iv)).fst).length = data.length := by
  constructor
  · rw [decompose_getElem? hw rng data key iv i hi]
    rfl
  · rw [aes_encrypt_decrypt_fst]
    exact (ctrOut_spec _ (fun c => toLEBytes_length _) data.length data iv rfl).1

/-- Witness for C7 at the largest IV, where the second block's counter
wraps to zero. -/
theorem ctr_counter_wraparound_witness :
    (1 : Nat) < num_128_blks (List.replicate 17 (0 : Nat)).length ∧
    (((AesBlock.decompose false 0 (List.replicate 17 0) (toLEBytes 0)
        (some (2 ^ 128 - 1)))[1]?).map AesBlock.ctr_block =
      some ((1 + (2 ^ 128 - 1)) % 2 ^ 128) ∧
    ((aes_encrypt_decrypt false 0 (List.replicate 17 0) (toLEBytes 0)
        (some (2 ^ 128 - 1))).fst).length = (List.replicate 17 (0 : Nat)).length) :=
  ⟨by decide, ctr_counter_wraparound false 0 (List.replicate 17 0) (toLEBytes 0)
    (2 ^ 128 - 1) 1 (by decide)⟩

theorem map_data_zipWith_mk (rks : List Nat) :
    ∀ (l1 : List (List Nat)) (l2 : List Nat), l1.length ≤ l2.length →
      (List.zipWith (fun c ctr => AesBlock.mk ctr c rks) l1 l2).map
        AesBlock.data = l1 := by
  intro l1
  induction l1 with
  | nil => intro l2 h; rfl
  | cons c cs ih =>
    intro l2 h
    cases l2 with
    | nil => simp at h
    | cons b bs =>
      simp only [List.zipWith_cons_cons, List.map_cons]
      rw [ih bs (by simp at h; omega)]

/-- Claim C8: decompose returns exactly ceil(len/16) tasks in natural
buffer order; task i holds exactly the sub-slice buffer[16i ..
min(16i+16, len)] (each of length 1..16, pairwise disjoint, contiguous),
and every task carries the shared round-key schedule. -/
theorem decompose_partitions (hw : Bool) (rng : Nat) (data key : List Nat)
    (iv : Nat) (hkey : key.length = 16) :
    (AesBlock.decompose hw rng data key (some iv)).length =
      num_128_blks data.length ∧
    (∀ i : Nat, i < num_128_blks data.length →
      (AesBlock.decompose hw rng data key (some iv))[i]? =
        some (AesBlock.mk ((i + iv) % 2 ^ 128) ((data.drop (16 * i)).take 16)
          (key_expansion hw (fromLEBytes key))) ∧
      1 ≤ ((data.drop (16 * i)).take 16).length ∧
      ((data.drop (16 * i)).take 16).length ≤ 16) ∧
    ((AesBlock.decompose hw rng data key (some iv)).map AesBlock.data).flatten =
      data := by
  refine ⟨decompose_length hw rng data key (some iv), ?_, ?_⟩
  · intro i hi
    refine ⟨decompose_getElem? hw rng data key iv i hi, ?_, ?_⟩
    · rw [List.length_take, List.length_drop]
      unfold num_128_blks at hi
      omega
    · rw [List.length_take]
      omega
  · show ((List.zipWith _ (chunks16 data) _).map AesBlock.data).flatten = data
    rw [map_data_zipWith_mk _ (chunks16 data) _
      (by rw [chunks16_length, List.length_map, List.length_range]),
      chunks16_flatten]

/-- Witness for C8 at a concrete 17-byte buffer and the NIST key. -/
theorem decompose_partitions_witness :
    (toLEBytes 0x2b7e151628aed2a6abf7158809cf4f3c).length = 16 ∧
    (AesBlock.decompose false 0 (List.replicate 17 7)
        (toLEBytes 0x2b7e151628aed2a6abf7158809cf4f3c) (some 9)).length =
      num_128_blks (List.replicate 17 (7 : Nat)).length ∧
    ((AesBlock.decompose false 0 (List.replicate 17 7)
        (toLEBytes 0x2b7e151628aed2a6abf7158809cf4f3c) (some 9)).map
      AesBlock.data).flatten = List.replicate 17 7 :=
  ⟨by decide,
    (decompose_partitions false 0 (List.replicate 17 7)
      (toLEBytes 0x2b7e151628aed2a6abf7158809cf4f3c) 9 (by decide)).1,
    (decompose_partitions false 0 (List.replicate 17 7)
      (toLEBytes 0x2b7e151628aed2a6abf7158809cf4f3c) 9 (by decide)).2.2⟩

/-- Claim C9: executing the encrypt() operation of the decompose tasks in
any permutation of the task list yields exactly the same final buffer as
executing them serially in list order, which in turn equals the serial
aes_encrypt_decrypt result. -/
theorem ctr_block_order_independent (hw : Bool) (data key : List Nat)
    (iv : Nat) (perm : List Nat) (hkey : key.length = 16)
    (hperm : perm.Perm (List.range (num_128_blks data.length))) :
    perm.foldl (run_block hw (key_expansion hw (fromLEBytes key)) iv) data =
      (List.range (num_128_blks data.length)).foldl
        (run_block hw (key_expansion hw (fromLEBytes key)) iv) data ∧
    (List.range (num_128_blks data.length)).foldl
        (run_block hw (key_expansion hw (fromLEBytes key)) iv) data =
      (aes_encrypt_decrypt hw 0 data key (some iv)).fst := by
  constructor
  · exact hperm.foldl_eq'
      (fun x _ y _ z => run_block_comm hw (key_expansion hw (fromLEBytes key)) iv z x y)
      data
  · rw [foldl_run_block_eq_ctrOut, aes_encrypt_decrypt_fst]

/-- Witness for C9: a 33-byte buffer whose three block tasks are run in
the order 2, 0, 1. -/
theorem ctr_block_order_independent_witness :
    (toLEBytes 0x2b7e151628aed2a6abf7158809cf4f3c).length = 16 ∧
    ([2, 1, 0] : List Nat).Perm
      (List.range (num_128_blks (List.replicate 33 (5 : Nat)).length)) ∧
    [2, 1, 0].foldl
        (run_block false (key_expansion false
          (fromLEBytes (toLEBytes 0x2b7e151628aed2a6abf7158809cf4f3c))) 11)
        (List.replicate 33 5) =
      (List.range (num_128_blks (List.replicate 33 (5 : Nat)).length)).foldl
        (run_block false (key_expansion false
          (fromLEBytes (toLEBytes 0x2b7e151628aed2a6abf7158809cf4f3c))) 11)
        (List.replicate 33 5) :=
  ⟨by decide, by decide,
    (ctr_block_order_independent false (List.replicate 33 5)
      (toLEBytes 0x2b7e151628aed2a6abf7158809cf4f3c) 11 [2, 1, 0]
      (by decide) (by decide)).1⟩

/-- Claim C5 fails on the code: ThreadPoolScope::assign_task sends the
NewTask message before incrementing num_tasks, so a worker can receive the
task, run it and fetch_sub first; the AtomicUsize counter then wraps to
2^64 - 1, which is not sent - executed = 0. The interleaving below is
reachable in the model transcribed from src/cpu/scoped_thread_pool.rs. -/
theorem assign_task_counter_violation :
    PoolReachable 1 ⟨1, 0, 1, 1, 1, W64 - 1⟩ ∧
    (W64 - 1 : Nat) ≠ 1 - 1 := by
  constructor
  · have s1 : PoolStep 1 (⟨0, 0, 0, 0, 0, 0⟩ : PoolState) ⟨1, 0, 0, 0, 0, 0⟩ :=
      PoolStep.send _ rfl (by decide)
    have s2 : PoolStep 1 (⟨1, 0, 0, 0, 0, 0⟩ : PoolState) ⟨1, 0, 1, 0, 0, 0⟩ :=
      PoolStep.recv _ (by decide)
    have s3 : PoolStep 1 (⟨1, 0, 1, 0, 0, 0⟩ : PoolState) ⟨1, 0, 1, 1, 0, 0⟩ :=
      PoolStep.finish _ (by decide)
    have s4 : PoolStep 1 (⟨1, 0, 1, 1, 0, 0⟩ : PoolState) ⟨1, 0, 1, 1, 1, W64 - 1⟩ := by
      have h := PoolStep.dec (n := 1) ⟨1, 0, 1, 1, 0, 0⟩ (by decide)
      have e : ((⟨1, 0, 1, 1, 0, 0⟩ : PoolState).ctr + (W64 - 1)) % W64 = W64 - 1 := by
        norm_num [W64]
      simpa [e] using h
    exact Relation.ReflTransGen.tail (Relation.ReflTransGen.tail
      (Relation.ReflTransGen.tail (Relation.ReflTransGen.tail
        Relation.ReflTransGen.refl s1) s2) s3) s4
  · norm_num [W64]

/-- Claim C6: once the scope body has performed all n of its assign_task
calls (all sends and increments done) and the scope destructor's await_all
has observed the counter at zero, every assigned task has been received
and run to completion — none is still running — and the counter equals its
scope-entry value. -/
theorem scope_drain (n : Nat) (s : PoolState) (hn : n < W64)
    (hreach : PoolReachable n s) (hsent : s.sent = n) (hinc : s.inced = n)
    (hctr : s.ctr = 0) :
    s.executed = n ∧ s.started = n ∧ s.deced = n ∧ s.ctr = initPool.ctr := by
  have hW : W64 = 18446744073709551616 := by norm_num [W64]
  obtain ⟨i1, i2, i3, i4, i5, i6, i7⟩ := poolInv_reachable hn hreach
  rw [hW] at i7
  refine ⟨?_, ?_, ?_, by rw [hctr]; rfl⟩ <;> (split at i7 <;> omega)

/-- Witness for C6: a full one-task trace of the pool, ending with the
counter at zero and the task completed. -/
theorem scope_drain_witness :
    (1 : Nat) < W64 ∧
    ((⟨1, 1, 1, 1, 1, 0⟩ : PoolState).executed = 1 ∧
      (⟨1, 1, 1, 1, 1, 0⟩ : PoolState).started = 1 ∧
      (⟨1, 1, 1, 1, 1, 0⟩ : PoolState).deced = 1 ∧
      (⟨1, 1, 1, 1, 1, 0⟩ : PoolState).ctr = initPool.ctr) := by
  refine ⟨by norm_num [W64], ?_⟩
  have s1 : PoolStep 1 (⟨0, 0, 0, 0, 0, 0⟩ : PoolState) ⟨1, 0, 0, 0, 0, 0⟩ :=
    PoolStep.send _ rfl (by decide)
  have s2 : PoolStep 1 (⟨1, 0, 0, 0, 0, 0⟩ : PoolState) ⟨1, 1, 0, 0, 0, 1⟩ := by
    have h := PoolStep.inc (n := 1) ⟨1, 0, 0, 0, 0, 0⟩ (by decide)
    have e : ((⟨1, 0, 0, 0, 0, 0⟩ : PoolState).ctr + 1) % W64 = 1 := by
      norm_num [W64]
    simpa [e] using h
  have s3 : PoolStep 1 (⟨1, 1, 0, 0, 0, 1⟩ : PoolState) ⟨1, 1, 1, 0, 0, 1⟩ :=
    PoolStep.recv _ (by decide)
  have s4 : PoolStep 1 (⟨1, 1, 1, 0, 0, 1⟩ : PoolState) ⟨1, 1, 1, 1, 0, 1⟩ :=
    PoolStep.finish _ (by decide)
  have s5 : PoolStep 1 (⟨1, 1, 1, 1, 0, 1⟩ : PoolState) ⟨1, 1, 1, 1, 1, 0⟩ := by
    have h := PoolStep.dec (n := 1) ⟨1, 1, 1, 1, 0, 1⟩ (by decide)
    have e : ((⟨1, 1, 1, 1, 0, 1⟩ : PoolState).ctr + (W64 - 1)) % W64 = 0 := by
      norm_num [W64]
    simpa [e] using h
  have htrace : PoolReachable 1 ⟨1, 1, 1, 1, 1, 0⟩ :=
    Relation.ReflTransGen.tail (Relation.ReflTransGen.tail
      (Relation.ReflTransGen.tail (Relation.ReflTransGen.tail
        (Relation.ReflTransGen.tail Relation.ReflTransGen.refl s1) s2) s3) s4) s5
  exact scope_drain 1 ⟨1, 1, 1, 1, 1, 0⟩ (by norm_num [W64]) htrace rfl rfl rfl
